import Mathlib

/-!
Verification of the packet_captor_sakura feature-extraction pipeline
(`src/data_generator`): a shallow embedding of the flow aggregator
(`flow_aggregator.rs`), the direction-inference and histogram feature
generator (`features.rs`), the PCAP file-header reader (`pcap.rs`), the
connection-log timestamp parser (`bro_types.rs`) and the executable's exit
behaviour (`main.rs`), together with theorems about them.

Machine integers (`u8`, `u16`, `u32`, `u64`, `usize`) are modelled as `Nat`.
The `u64` additions performed by the flow aggregator are modelled as plain
`Nat` additions; their overflow behaviour is treated separately and
explicitly via `checkedAdd` (bounded by `u64Max`).  `f64` values are
modelled as `Rat`.  Rust `HashMap`s are modelled as functions (to `Option`
or with an empty default), and `Vec` as `List`.
-/

namespace PacketCaptor

/-- Largest value of a Rust `u64`. -/
def u64Max : Nat := 18446744073709551615

/-- `std::net::IpAddr`: a v4 or v6 address, each carried abstractly as its
numeric value. -/
inductive IpAddr where
  | v4 (addr : Nat)
  | v6 (addr : Nat)
deriving DecidableEq, Repr

/-- `packet.rs`: a parsed packet (`Packet`). -/
structure Packet where
  src_ip : IpAddr
  dst_ip : IpAddr
  trans_protocol : Nat
  src_port : Nat
  dst_port : Nat
  payload_length : Nat
  entropy : Rat
  timestamp : Nat
deriving DecidableEq, Repr

/-- `packet.rs`: a packet stripped of identifying features
(`StrippedPacket`). -/
structure StrippedPacket where
  trans_protocol : Nat
  payload_length : Nat
  entropy : Rat
  timestamp : Nat
  src_port : Nat
  dst_port : Nat
deriving DecidableEq, Repr

/-- `Packet::strip` / `StrippedPacket::from`. -/
def Packet.strip (p : Packet) : StrippedPacket :=
  { trans_protocol := p.trans_protocol
    payload_length := p.payload_length
    entropy := p.entropy
    timestamp := p.timestamp
    src_port := p.src_port
    dst_port := p.dst_port }

/-- `bro_types.rs`: `TransportProtocol` as supported by Bro. -/
inductive TransportProtocol where
  | Unknown
  | Tcp
  | Udp
  | Icmp
deriving DecidableEq, Repr

/-- `TransportProtocol::code`: the IP next-protocol code
(Tcp = 6, Udp = 17, Icmp = 1 per the IANA registry used by `pnet`). -/
def TransportProtocol.code : TransportProtocol → Nat
  | .Unknown => 0x00
  | .Tcp => 6
  | .Udp => 17
  | .Icmp => 1

/-- `bro_types.rs`: a `Connection` record from the external connection log
(only the fields consumed by the flow aggregator; the optional summary
counters are irrelevant to every claim and omitted). -/
structure Connection where
  timestamp : Nat
  uid : String
  orig_ip : IpAddr
  resp_ip : IpAddr
  orig_port : Nat
  resp_port : Nat
  trans_protocol : TransportProtocol
  duration : Nat
deriving DecidableEq, Repr

/-- `bro_types.rs`: `parse_bro_timestamp`.  The deserialized `f64` seconds
value `ts` is multiplied by `1e6`, cast with `as u64` (which truncates the
fractional part toward zero and saturates: negative values become `0`,
values above `u64::MAX` become `u64::MAX`), then multiplied by `1000` in
`u64` (wrapping) arithmetic.  The `f64` value is modelled as a rational;
for a nonnegative value truncation toward zero is `Int.floor`, and
`Int.toNat` of the floor also yields `0` on every negative value, matching
the saturating cast. -/
def parse_bro_timestamp (ts : Rat) : Nat :=
  (min (⌊ts * 1000000⌋).toNat u64Max) * 1000 % (u64Max + 1)

/-- Follows the spec's words, for comparison with `parse_bro_timestamp`:
the microsecond value rounded to the nearest integer, then expanded to
nanoseconds. -/
def parse_bro_timestamp_specRounded (ts : Rat) : Nat :=
  (round (ts * 1000000)).toNat * 1000

/-- `main.rs`: `main` runs `run()`; on `Err` it only logs the error
(`error!`) and falls through, so the process returns from `main` normally
in both branches.  The value is the resulting process exit status. -/
def mainExitCode (result : Except String Unit) : Nat :=
  match result with
  | .ok _ => 0
  | .error _ => 0

/-- `flow_aggregator.rs`: `PacketKey`, the canonical five-tuple. -/
structure PacketKey where
  ip_a : IpAddr
  ip_b : IpAddr
  trans_protocol : Nat
  port_a : Nat
  port_b : Nat
deriving DecidableEq, Repr

/-- `PacketKey::new`: the ip/port pair with the lower port is assigned to
`ip_a`, `port_a`; on equal ports the fields match the arguments. -/
def PacketKey.new (ip_a ip_b : IpAddr) (trans_protocol : Nat) (port_a port_b : Nat) :
    PacketKey :=
  if port_a ≤ port_b then
    { ip_a := ip_a, ip_b := ip_b, trans_protocol := trans_protocol
      port_a := port_a, port_b := port_b }
  else
    { ip_a := ip_b, ip_b := ip_a, trans_protocol := trans_protocol
      port_a := port_b, port_b := port_a }

/-- `PacketKey::from(&Packet)`. -/
def PacketKey.ofPacket (p : Packet) : PacketKey :=
  PacketKey.new p.src_ip p.dst_ip p.trans_protocol p.src_port p.dst_port

/-- `PacketKey::from(&Connection)`. -/
def PacketKey.ofConnection (c : Connection) : PacketKey :=
  PacketKey.new c.orig_ip c.resp_ip c.trans_protocol.code c.orig_port c.resp_port

/-- `flow_aggregator.rs`: `FlowPeriod` (`end` is a Lean keyword, hence
`end_`). -/
structure FlowPeriod where
  start : Nat
  end_ : Nat
  id : String
deriving DecidableEq, Repr

/-- `FlowPeriod::from(&Connection)`: `end` is the unchecked `u64` sum
`timestamp + duration`. -/
def FlowPeriod.ofConnection (c : Connection) : FlowPeriod :=
  { start := c.timestamp, end_ := c.timestamp + c.duration, id := c.uid }

/-- `flow_aggregator.rs` (inside `load_packets`): `TimeDifference`, the
time relationship between a packet and a flow period when the packet did
not happen during the flow. -/
inductive TimeDifference where
  | After (delta : Nat)
  | Before (delta : Nat)
deriving DecidableEq, Repr

/-- `TimeDifference::cmp` (the derived `Ord` used by
`sort_unstable_by_key`): deltas are compared within a variant, and every
`After` value is less than every `Before` value. -/
def TimeDifference.cmp : TimeDifference → TimeDifference → Ordering
  | .After my_delta, .After their_delta => compare my_delta their_delta
  | .Before my_delta, .Before their_delta => compare my_delta their_delta
  | .After _, .Before _ => .lt
  | .Before _, .After _ => .gt

/-- The derived `Ord` of `Option<TimeDifference>` (`None` sorts first),
the sort key type used in `load_packets`. -/
def optTimeDiffCmp : Option TimeDifference → Option TimeDifference → Ordering
  | none, none => .eq
  | none, some _ => .lt
  | some _, none => .gt
  | some a, some b => a.cmp b

/-- `flow_aggregator.rs` (inside `load_packets`): `FlowPossibility`, a
potential flow match for a packet. -/
structure FlowPossibility where
  id : String
  time_difference : Option TimeDifference
deriving DecidableEq, Repr

/-- The non-strict order on `FlowPossibility` induced by the
`sort_unstable_by_key(|p| p.time_difference)` call: `a` may precede `b`
when the key comparison does not say `Greater`. -/
def possLe (a b : FlowPossibility) : Prop :=
  optTimeDiffCmp a.time_difference b.time_difference ≠ Ordering.gt

instance : DecidableRel possLe := fun _ _ => instDecidableNot

/-- The `try_fold` inside `FlowAggregator::load_packets`, iterating the
periods under the packet's key.  An exact match (`start ≤ t ≤ end`)
short-circuits via `Err`; otherwise candidates are pushed onto the
accumulator in period order.  `t` is `packet.timestamp`, `gb` and `ga` are
`grace_period_before` and `grace_period_after`. -/
def classifyPeriods (gb ga t : Nat) (acc : List FlowPossibility) :
    List FlowPeriod → Except FlowPossibility (List FlowPossibility)
  | [] => .ok acc
  | period :: rest =>
    if t ≥ period.start ∧ t ≤ period.end_ then
      .error { id := period.id, time_difference := none }
    else if t < period.end_ + ga then
      classifyPeriods gb ga t
        (acc ++ [{ id := period.id
                   time_difference := some (.After (period.end_ + ga - t)) }]) rest
    else if t + gb > period.start then
      classifyPeriods gb ga t
        (acc ++ [{ id := period.id
                   time_difference := some (.Before (t + gb - period.start)) }]) rest
    else
      classifyPeriods gb ga t acc rest

/-- The `sort_unstable_by_key(|possibility| possibility.time_difference)`
call in `load_packets`, modelled as a sort with respect to `possLe`. -/
def sortPossibilities (possibilities : List FlowPossibility) : List FlowPossibility :=
  List.insertionSort possLe possibilities

/-- The flow id chosen for one packet by `load_packets`: the `Err` of the
`try_fold` (a perfect match) wins immediately; otherwise the candidates
are sorted and the first is taken (`None` when there are none). -/
def flowIdFor (gb ga t : Nat) (periods : List FlowPeriod) : Option String :=
  match classifyPeriods gb ga t [] periods with
  | .error possibility => some possibility.id
  | .ok possibilities => (sortPossibilities possibilities).head?.map FlowPossibility.id

/-- `flow_aggregator.rs`: `FlowAggregator`.  The two `HashMap`s are
modelled as functions: `data` with empty-list default, `connection_map`
with `Option`. -/
structure FlowAggregator where
  data : String → List StrippedPacket
  connection_map : PacketKey → Option (List FlowPeriod)
  grace_period_before : Nat
  grace_period_after : Nat

/-- `FlowAggregator::new`: groups `(PacketKey, FlowPeriod)` pairs of the
connections by key (`into_group_map`), keeping encounter order per key. -/
def FlowAggregator.new (connections : List Connection) (gb ga : Nat) : FlowAggregator :=
  { data := fun _ => []
    connection_map := fun key =>
      match (connections.filter (fun c => PacketKey.ofConnection c = key)).map
          FlowPeriod.ofConnection with
      | [] => none
      | periods => some periods
    grace_period_before := gb
    grace_period_after := ga }

/-- The body of the `for packet in packets` loop of
`FlowAggregator::load_packets`: packets whose key is absent, or for which
no flow id is found, are dropped (with a warning); otherwise the stripped
packet is pushed onto the chosen uid's bucket. -/
def loadPacketsStep (agg : FlowAggregator) (packet : Packet) : FlowAggregator :=
  match agg.connection_map (PacketKey.ofPacket packet) with
  | some periods =>
    match flowIdFor agg.grace_period_before agg.grace_period_after packet.timestamp
        periods with
    | some flow_id =>
      { agg with
        data := fun uid =>
          if uid = flow_id then agg.data uid ++ [packet.strip] else agg.data uid }
    | none => agg
  | none => agg

/-- Non-strict timestamp order on stripped packets, the key order of the
final `sort_unstable_by_key(|packet| packet.timestamp)` in
`load_packets`. -/
def tsLe (a b : StrippedPacket) : Prop := a.timestamp ≤ b.timestamp

instance : DecidableRel tsLe := fun a b => Nat.decLe a.timestamp b.timestamp

instance : IsTotal StrippedPacket tsLe := ⟨fun a b => Nat.le_total a.timestamp b.timestamp⟩

instance : IsTrans StrippedPacket tsLe := ⟨fun _ _ _ => Nat.le_trans⟩

/-- The bucket sort at the end of `load_packets`. -/
def sortByTimestamp (packets : List StrippedPacket) : List StrippedPacket :=
  List.insertionSort tsLe packets

/-- `FlowAggregator::load_packets`: ingest every packet, then sort each
uid's bucket by ascending timestamp. -/
def FlowAggregator.load_packets (agg : FlowAggregator) (packets : List Packet) :
    FlowAggregator :=
  let agg := packets.foldl loadPacketsStep agg
  { agg with data := fun uid => sortByTimestamp (agg.data uid) }

/-- `FlowAggregator::into_aggregated_flows`: exposes `data`. -/
def FlowAggregator.into_aggregated_flows (agg : FlowAggregator) :
    String → List StrippedPacket :=
  agg.data

/-- A `u64` addition with its overflow check made explicit: `none` models
the overflow branch (a panic in debug builds, a wrap in release builds). -/
def checkedAdd (a b : Nat) : Option Nat :=
  if a + b ≤ u64Max then some (a + b) else none

/-- `classifyPeriods` with every `u64` addition of the candidate tests
routed through `checkedAdd`; `none` means some addition overflowed. -/
def classifyPeriodsChecked (gb ga t : Nat) (acc : List FlowPossibility) :
    List FlowPeriod → Option (Except FlowPossibility (List FlowPossibility))
  | [] => some (.ok acc)
  | period :: rest =>
    if t ≥ period.start ∧ t ≤ period.end_ then
      some (.error { id := period.id, time_difference := none })
    else
      match checkedAdd period.end_ ga with
      | none => none
      | some endPlusGrace =>
        if t < endPlusGrace then
          classifyPeriodsChecked gb ga t
            (acc ++ [{ id := period.id
                       time_difference := some (.After (endPlusGrace - t)) }]) rest
        else
          match checkedAdd t gb with
          | none => none
          | some tPlusGrace =>
            if tPlusGrace > period.start then
              classifyPeriodsChecked gb ga t
                (acc ++ [{ id := period.id
                           time_difference := some (.Before (tPlusGrace - period.start)) }])
                rest
            else
              classifyPeriodsChecked gb ga t acc rest

/-- `features.rs`: `PacketDirection`. -/
inductive PacketDirection where
  | FromClient
  | ToClient
  | Unknown
deriving DecidableEq, Repr

/-- `features.rs`: `DirectionInferenceMethod`.  The `HashSet<u16>` of
`ServerPorts` is modelled as a list with membership lookups. -/
inductive DirectionInferenceMethod where
  | Ephemeral
  | ServerPort (port : Nat)
  | ServerPorts (ports : List Nat)
deriving DecidableEq, Repr

/-- Minimum ephemeral port according to IANA standards. -/
def MIN_IANA_EPH_PORT : Nat := 49152

/-- Maximum ephemeral port according to IANA standards. -/
def MAX_IANA_EPH_PORT : Nat := 65535

/-- Minimum ephemeral port used frequently by the Linux kernel. -/
def MIN_LINUX_EPH_PORT : Nat := 32768

/-- Maximum ephemeral port used frequently by the Linux kernel. -/
def MAX_LINUX_EPH_PORT : Nat := 61000

/-- `DirectionInferenceMethod::infer_from_server_port`. -/
def infer_from_server_port (src_port dst_port server_port : Nat) :
    Option PacketDirection :=
  if dst_port = server_port then some .FromClient
  else if src_port = server_port then some .ToClient
  else none

/-- `DirectionInferenceMethod::infer_from_server_ports`. -/
def infer_from_server_ports (src_port dst_port : Nat) (server_ports : List Nat) :
    Option PacketDirection :=
  if dst_port ∈ server_ports then some .FromClient
  else if src_port ∈ server_ports then some .ToClient
  else none

/-- `DirectionInferenceMethod::infer_ephemeral`. -/
def infer_ephemeral (src_port dst_port : Nat) : Option PacketDirection :=
  if MIN_IANA_EPH_PORT ≤ src_port ∧ src_port ≤ MAX_IANA_EPH_PORT then
    some .FromClient
  else if MIN_IANA_EPH_PORT ≤ dst_port ∧ dst_port ≤ MAX_IANA_EPH_PORT then
    some .ToClient
  else if MIN_LINUX_EPH_PORT ≤ src_port ∧ src_port ≤ MAX_LINUX_EPH_PORT then
    some .FromClient
  else if MIN_LINUX_EPH_PORT ≤ dst_port ∧ dst_port ≤ MAX_LINUX_EPH_PORT then
    some .ToClient
  else
    none

/-- `DirectionInferenceMethod::infer`. -/
def DirectionInferenceMethod.infer (m : DirectionInferenceMethod)
    (src_port dst_port : Nat) : Option PacketDirection :=
  match m with
  | .Ephemeral => infer_ephemeral src_port dst_port
  | .ServerPort server_port => infer_from_server_port src_port dst_port server_port
  | .ServerPorts server_ports => infer_from_server_ports src_port dst_port server_ports

/-- The sequence of directions yielded by the `scan` iterator inside
`DirectionInferenceMethod::infer_multiple`.  The `scan` closure returns
`Option<PacketDirection>` and Rust's `Iterator::scan` ends the whole
iteration at the first `None` returned by the closure, so a method whose
inference fails terminates the sequence.  The state `last_ephemeral`
caches the result of a previous `Ephemeral` evaluation. -/
def scanDirections (src_port dst_port : Nat) :
    Option (Option PacketDirection) → List DirectionInferenceMethod →
      List PacketDirection
  | _, [] => []
  | last_ephemeral, m :: rest =>
    if m = .Ephemeral then
      match last_ephemeral with
      | some cached =>
        match cached with
        | some dir => dir :: scanDirections src_port dst_port (some cached) rest
        | none => []
      | none =>
        match m.infer src_port dst_port with
        | some dir =>
          dir :: scanDirections src_port dst_port (some (some dir)) rest
        | none => []
    else
      match m.infer src_port dst_port with
      | some dir => dir :: scanDirections src_port dst_port last_ephemeral rest
      | none => []

/-- `DirectionInferenceMethod::infer_multiple`: `.scan(..).next()` takes
the first yielded direction, and `unwrap_or_else` turns `None` into
`Unknown`. -/
def DirectionInferenceMethod.infer_multiple (src_port dst_port : Nat)
    (methods : List DirectionInferenceMethod) : PacketDirection :=
  ((scanDirections src_port dst_port none methods).head?).getD .Unknown

/-- Follows the spec's words, for comparison with `infer_multiple`: the
strategies are tried in order, a strategy returning `None` is passed over,
the first `Some(dir)` wins and the result is `Unknown` only when every
strategy returns `None`. -/
def infer_multiple_specFirstSome (src_port dst_port : Nat) :
    List DirectionInferenceMethod → PacketDirection
  | [] => .Unknown
  | m :: rest =>
    match m.infer src_port dst_port with
    | some dir => dir
    | none => infer_multiple_specFirstSome src_port dst_port rest

/-- `features.rs`: `PacketFeatures` (per-packet derived record). -/
structure PacketFeatures where
  payload_length : Nat
  interarrival_time : Nat
  direction : PacketDirection
deriving DecidableEq, Repr

/-- `features.rs`: `FlowFeatures` (three integer histograms). -/
structure FlowFeatures where
  payload_length_freq_bins : List Nat
  interarrival_freq_from_client_bins : List Nat
  interarrival_freq_to_client_bins : List Nat
deriving DecidableEq, Repr

/-- One inner `for (idx, bin_max) in ...enumerate()` loop of
`FlowFeatures::generate`: walk the bin edges and the bins in lockstep and
increment the bin of the first edge for which `cond` holds and
`value < bin_max`, then break. -/
def bumpFirstBin (cond : Bool) (value : Nat) :
    List Nat → List Nat → List Nat
  | bin_max :: edges, bin :: bins =>
    if cond ∧ value < bin_max then (bin + 1) :: bins
    else bin :: bumpFirstBin cond value edges bins
  | _, bins => bins

/-- The per-packet body of the loop of `FlowFeatures::generate`: the
payload histogram is updated unconditionally, the two interarrival
histograms only when the packet's direction matches. -/
def generateStep (payload_length_bin_sizes interarrival_from_client_bin_sizes
    interarrival_to_client_bin_sizes : List Nat) (acc : FlowFeatures)
    (packet : PacketFeatures) : FlowFeatures :=
  { payload_length_freq_bins :=
      bumpFirstBin true packet.payload_length payload_length_bin_sizes
        acc.payload_length_freq_bins
    interarrival_freq_from_client_bins :=
      bumpFirstBin (packet.direction = PacketDirection.FromClient)
        packet.interarrival_time interarrival_from_client_bin_sizes
        acc.interarrival_freq_from_client_bins
    interarrival_freq_to_client_bins :=
      bumpFirstBin (packet.direction = PacketDirection.ToClient)
        packet.interarrival_time interarrival_to_client_bin_sizes
        acc.interarrival_freq_to_client_bins }

/-- `FlowFeatures::generate`: bins initialized to zeroes of the edge-list
lengths, then one pass over the packet features. -/
def FlowFeatures.generate (packet_features : List PacketFeatures)
    (payload_length_bin_sizes interarrival_from_client_bin_sizes
      interarrival_to_client_bin_sizes : List Nat) : FlowFeatures :=
  packet_features.foldl
    (generateStep payload_length_bin_sizes interarrival_from_client_bin_sizes
      interarrival_to_client_bin_sizes)
    { payload_length_freq_bins := List.replicate payload_length_bin_sizes.length 0
      interarrival_freq_from_client_bins :=
        List.replicate interarrival_from_client_bin_sizes.length 0
      interarrival_freq_to_client_bins :=
        List.replicate interarrival_to_client_bin_sizes.length 0 }

/-- `pcap.rs`: `Endianness`. -/
inductive Endianness where
  | Big
  | Little
deriving DecidableEq, Repr

/-- The opposite byte order, used when the magic number reads swapped. -/
def Endianness.flip : Endianness → Endianness
  | .Big => .Little
  | .Little => .Big

/-- `byteorder`-style `read_u32`: consume four bytes of the stream and
assemble them under the given byte order; `none` models the I/O error on
a short read.  Bytes are modelled as naturals below 256. -/
def readU32 (e : Endianness) : List Nat → Option (Nat × List Nat)
  | b0 :: b1 :: b2 :: b3 :: rest =>
    match e with
    | .Little => some (b0 + 256 * (b1 + 256 * (b2 + 256 * b3)), rest)
    | .Big => some (b3 + 256 * (b2 + 256 * (b1 + 256 * b0)), rest)
  | _ => none

/-- `byteorder`-style `read_u16`. -/
def readU16 (e : Endianness) : List Nat → Option (Nat × List Nat)
  | b0 :: b1 :: rest =>
    match e with
    | .Little => some (b0 + 256 * b1, rest)
    | .Big => some (b1 + 256 * b0, rest)
  | _ => none

/-- Reinterpret a `u32` value as an `i32` (two's complement). -/
def toI32 (v : Nat) : Int :=
  if v < 2 ^ 31 then (v : Int) else (v : Int) - 2 ^ 32

/-- `byteorder`-style `read_i32`. -/
def readI32 (e : Endianness) (source : List Nat) : Option (Int × List Nat) :=
  (readU32 e source).map (fun p => (toI32 p.1, p.2))

/-- `pcap.rs`: `PcapHeader` (the six fields after the magic number). -/
structure PcapHeader where
  version_major : Nat
  version_minor : Nat
  this_zone : Int
  sig_figs : Nat
  snap_len : Nat
  network : Nat
deriving DecidableEq, Repr

/-- `PcapHeader::read_from`: the six header fields, in order, under the
detected byte order; each `?` operator of the Rust code is a match
propagating the short-read failure. -/
def PcapHeader.read_from (e : Endianness) (source : List Nat) :
    Option (PcapHeader × List Nat) :=
  match readU16 e source with
  | none => none
  | some (version_major, source) =>
    match readU16 e source with
    | none => none
    | some (version_minor, source) =>
      match readI32 e source with
      | none => none
      | some (this_zone, source) =>
        match readU32 e source with
        | none => none
        | some (sig_figs, source) =>
          match readU32 e source with
          | none => none
          | some (snap_len, source) =>
            match readU32 e source with
            | none => none
            | some (network, source) =>
              some ({ version_major := version_major
                      version_minor := version_minor
                      this_zone := this_zone, sig_figs := sig_figs
                      snap_len := snap_len, network := network }, source)

/-- The error kinds `PcapReader::from_reader` can produce: an I/O error
from a short read, or `InvalidData` carrying the unrecognized magic
number. -/
inductive PcapError where
  | IoError
  | InvalidData (magic_number : Nat)
deriving DecidableEq, Repr

/-- The state of a freshly constructed `PcapReader`. -/
structure PcapReaderState where
  source : List Nat
  endianness : Endianness
  is_nanosecond_res : Bool
  header : PcapHeader
deriving DecidableEq, Repr

/-- The four-sentinel `match` of `PcapReader::from_reader`, yielding
`(is_flipped, is_nanosecond_res)`; `none` is the `InvalidData` arm. -/
def magicInfo (magic_number : Nat) : Option (Bool × Bool) :=
  if magic_number = 0xa1b2c3d4 then some (false, false)
  else if magic_number = 0xd4c3b2a1 then some (true, false)
  else if magic_number = 0xa1b23c4d then some (false, true)
  else if magic_number = 0x4d3cb2a1 then some (true, true)
  else none

/-- `PcapReader::from_reader`: read the magic number with the machine's
native byte order (`native`), determine flippedness and timestamp
resolution from the four sentinels, fail with `InvalidData` on anything
else, then read the six-field header under the detected byte order. -/
def PcapReader.from_reader (native : Endianness) (source : List Nat) :
    Except PcapError PcapReaderState :=
  match readU32 native source with
  | none => .error .IoError
  | some (magic_number, source) =>
    match magicInfo magic_number with
    | none => .error (.InvalidData magic_number)
    | some (is_flipped, is_nanosecond_res) =>
      let endianness := if is_flipped then native.flip else native
      match PcapHeader.read_from endianness source with
      | none => .error .IoError
      | some (header, source) =>
        .ok { source := source, endianness := endianness
              is_nanosecond_res := is_nanosecond_res, header := header }

/-- The four magic-number sentinels accepted by `from_reader`. -/
def pcapMagics : List Nat := [0xa1b2c3d4, 0xd4c3b2a1, 0xa1b23c4d, 0x4d3cb2a1]

/-- The ordering stated by the spec for `load_packets` candidates: every
`After` precedes every `Before`, and within a variant the smaller stored
delta comes first. -/
def claimLe : TimeDifference → TimeDifference → Prop
  | .After x, .After y => x ≤ y
  | .After _, .Before _ => True
  | .Before _, .After _ => False
  | .Before x, .Before y => x ≤ y

/-- Statement vocabulary for the histogram claims: the index of the first
bin edge `e` with `value < e`, if any. -/
def firstBinIdx (value : Nat) : List Nat → Option Nat
  | [] => none
  | e :: es => if value < e then some 0 else (firstBinIdx value es).map (· + 1)

/-!  Theorems. -/

/-- Claim C4, counterexample: `PacketKey::new` is *not* symmetric under
swapping the two endpoints when the ports tie but the addresses differ,
because the tie keeps the argument order. -/
theorem packetKey_new_not_symmetric_on_tie :
    PacketKey.new (.v4 1) (.v4 2) 6 5 5 ≠ PacketKey.new (.v4 2) (.v4 1) 6 5 5 := by
  decide

/-- Claim C4, amended: `PacketKey::new a b proto pa pb` equals
`PacketKey::new b a proto pb pa` whenever `pa ≠ pb`; the endpoint stored in
`(ip_a, port_a)` is always the one with the numerically lesser port; and
when `pa = pb` the fields keep the argument order. -/
theorem packetKey_new_canonicalizes (a b : IpAddr) (proto pa pb : Nat) :
    (pa ≠ pb → PacketKey.new a b proto pa pb = PacketKey.new b a proto pb pa)
    ∧ (PacketKey.new a b proto pa pb).port_a = min pa pb
    ∧ (PacketKey.new a b proto pa pb).port_b = max pa pb
    ∧ ((PacketKey.new a b proto pa pb).ip_a, (PacketKey.new a b proto pa pb).port_a)
        = (if pa ≤ pb then (a, pa) else (b, pb))
    ∧ (pa = pb → PacketKey.new a b proto pa pb =
        { ip_a := a, ip_b := b, trans_protocol := proto, port_a := pa, port_b := pb }) := by
  refine ⟨?_, ?_, ?_, ?_, ?_⟩
  · intro hne
    unfold PacketKey.new
    rcases Nat.lt_or_ge pa pb with h | h
    · rw [if_pos (Nat.le_of_lt h), if_neg (by omega)]
    · rw [if_neg (by omega), if_pos (by omega)]
  · unfold PacketKey.new
    split_ifs with h <;> simp <;> omega
  · unfold PacketKey.new
    split_ifs with h <;> simp <;> omega
  · unfold PacketKey.new
    split_ifs with h <;> simp
  · intro h
    subst h
    simp [PacketKey.new]

/-- Claim C4, witness for the amended theorem at a concrete input. -/
theorem packetKey_new_canonicalizes_witness :
    PacketKey.new (.v4 1) (.v4 2) 6 443 80 = PacketKey.new (.v4 2) (.v4 1) 6 80 443 :=
  (packetKey_new_canonicalizes (.v4 1) (.v4 2) 6 443 80).1 (by decide)

/-- Claim C5, counterexample: `parse_bro_timestamp` truncates the
microsecond value (the Rust `as u64` cast) instead of rounding it to the
nearest integer.  At `ts = 2⁻²⁰` seconds (exactly representable in `f64`,
with an exactly representable product `ts * 1e6 = 15625/16384 ≈ 0.954 µs`)
the code yields `0` ns while the spec's `round(ts * 1e6) * 1000` yields
`1000` ns. -/
theorem parse_bro_timestamp_not_rounded :
    parse_bro_timestamp (1 / 1048576) = 0
    ∧ parse_bro_timestamp_specRounded (1 / 1048576) = 1000
    ∧ parse_bro_timestamp (1 / 1048576)
        ≠ parse_bro_timestamp_specRounded (1 / 1048576) := by
  have hA : parse_bro_timestamp (1 / 1048576) = 0 := by
    unfold parse_bro_timestamp
    have h : ⌊(1 / 1048576 : Rat) * 1000000⌋ = 0 := by
      rw [Int.floor_eq_iff]
      norm_num
    rw [h]
    decide
  have hB : parse_bro_timestamp_specRounded (1 / 1048576) = 1000 := by
    unfold parse_bro_timestamp_specRounded
    have h : round ((1 / 1048576 : Rat) * 1000000) = 1 := by
      rw [round_eq, Int.floor_eq_iff]
      norm_num
    rw [h]
    decide
  exact ⟨hA, hB, by rw [hA, hB]; decide⟩

/-- Claim C5, amended: for every timestamp whose truncated microsecond
value fits `u64` arithmetic, `parse_bro_timestamp` returns
`trunc(ts * 1e6) * 1000` — the microsecond value truncated (floored) to an
integer, not rounded, before being expanded to nanoseconds. -/
theorem parse_bro_timestamp_truncates (ts : Rat)
    (h : (⌊ts * 1000000⌋).toNat * 1000 ≤ u64Max) :
    parse_bro_timestamp ts = (⌊ts * 1000000⌋).toNat * 1000 := by
  unfold parse_bro_timestamp
  have h1 : (⌊ts * 1000000⌋).toNat ≤ u64Max := by omega
  rw [Nat.min_eq_left h1]
  exact Nat.mod_eq_of_lt (by omega)

/-- Claim C5, witness for the amended theorem at `ts = 1.5` seconds. -/
theorem parse_bro_timestamp_truncates_witness :
    parse_bro_timestamp (3 / 2) = (⌊(3 / 2 : Rat) * 1000000⌋).toNat * 1000 :=
  parse_bro_timestamp_truncates (3 / 2) (by
    have h : ⌊(3 / 2 : Rat) * 1000000⌋ = 1500000 := by
      rw [Int.floor_eq_iff]
      norm_num
    rw [h]
    decide)

/-- Claim C6, counterexample: when `run()` returns an error — for example
because the manifest `report.json` is absent — `main` merely logs it and
returns normally, so the process exits with status `0`, not non-zero. -/
theorem main_exit_zero_on_error :
    mainExitCode (.error "failed to open report.json") = 0 := rfl

/-- Claim C6, amended: the feature-extractor executable exits with status
`0` both when `run()` succeeds and when `run()` returns an error (the
error is only logged). -/
theorem main_exit_code_always_zero (result : Except String Unit) :
    mainExitCode result = 0 := by
  cases result <;> rfl

/-- Claim C1, code-bug evidence: with `grace_before = 10`,
`grace_after = 5` and one period `[100, 200]`, the packet at `t = 50`
(before the period and far outside the before-grace window, so the claim
and the code's own branch comments require it to be ignored) is recorded
as an `After(155)` candidate, and the packet at `t = 300` (past
`end + grace_after = 205`, so likewise to be ignored) is recorded as a
`Before(210)` candidate.  The second and third conjuncts of each group
check that the claim's After window `end < t < end + grace_after` and
Before window `start − grace_before < t < start` are indeed both empty at
these inputs. -/
theorem classifyPeriods_grace_windows_violated :
    (classifyPeriods 10 5 50 [] [{ start := 100, end_ := 200, id := "u" }]
        = .ok [{ id := "u", time_difference := some (.After 155) }]
      ∧ ¬ (200 < 50 ∧ 50 < 200 + 5)
      ∧ ¬ (100 - 10 < 50 ∧ 50 < 100))
    ∧ (classifyPeriods 10 5 300 [] [{ start := 100, end_ := 200, id := "u" }]
        = .ok [{ id := "u", time_difference := some (.Before 210) }]
      ∧ ¬ (200 < 300 ∧ 300 < 200 + 5)
      ∧ ¬ (100 - 10 < 300 ∧ 300 < 100)) := by
  exact ⟨⟨rfl, by decide, by decide⟩, ⟨rfl, by decide, by decide⟩⟩

/-- Claim C3, code-bug evidence: `infer_multiple` does *not* pass over a
strategy that returns `None` — the underlying `Iterator::scan` ends the
iteration at the first `None` from its closure, so with the strategy list
`[ServerPort(80), ServerPort(443)]` and ports `(1234, 443)` the first
strategy fails and the result is `Unknown`, even though the second
strategy returns `Some(FromClient)` (which the claim, and the plain
first-`Some`-wins reading `infer_multiple_specFirstSome`, would
select). -/
theorem infer_multiple_stops_at_first_none :
    DirectionInferenceMethod.infer_multiple 1234 443
        [.ServerPort 80, .ServerPort 443] = .Unknown
    ∧ (DirectionInferenceMethod.ServerPort 80).infer 1234 443 = none
    ∧ (DirectionInferenceMethod.ServerPort 443).infer 1234 443
        = some .FromClient
    ∧ infer_multiple_specFirstSome 1234 443 [.ServerPort 80, .ServerPort 443]
        = .FromClient := by
  exact ⟨rfl, rfl, rfl, rfl⟩

/-- Claim C9: after every `load_packets` call, every uid bucket of the
aggregator's `data` map has non-decreasing timestamps, and this `data`
map is exactly what `into_aggregated_flows` exposes. -/
theorem load_packets_buckets_sorted (agg : FlowAggregator) (packets : List Packet)
    (uid : String) :
    List.Pairwise tsLe ((agg.load_packets packets).into_aggregated_flows uid)
    ∧ (agg.load_packets packets).into_aggregated_flows
        = (agg.load_packets packets).data := by
  constructor
  · exact List.sorted_insertionSort tsLe
      ((packets.foldl loadPacketsStep agg).data uid)
  · rfl

/-- Claim C10: under the precondition that every period's `end` is at most
`u64::MAX − grace_period_after` and the packet's timestamp is at most
`u64::MAX − grace_period_before` (with the grace values themselves `u64`
values), none of the unchecked `u64` additions evaluated by the candidate
tests of `load_packets` overflows — the checked classification agrees with
the unchecked one everywhere — and without the precondition the overflow
branch is reachable (second conjunct: a period whose `end` is `u64::MAX`
with `grace_after = 1` trips the overflow check). -/
theorem load_packets_additions_no_overflow (gb ga t : Nat)
    (acc : List FlowPossibility) (periods : List FlowPeriod)
    (hga : ga ≤ u64Max) (hgb : gb ≤ u64Max)
    (hend : ∀ p ∈ periods, p.end_ ≤ u64Max - ga) (ht : t ≤ u64Max - gb) :
    classifyPeriodsChecked gb ga t acc periods
        = some (classifyPeriods gb ga t acc periods)
    ∧ classifyPeriodsChecked 0 1 0 []
        [{ start := 5, end_ := u64Max, id := "u" }] = none := by
  constructor
  · induction periods generalizing acc with
    | nil => rfl
    | cons period rest ih =>
      have hend1 : period.end_ ≤ u64Max - ga := hend period (List.mem_cons_self _ _)
      have hendRest : ∀ p ∈ rest, p.end_ ≤ u64Max - ga := fun p hp =>
        hend p (List.mem_cons_of_mem _ hp)
      by_cases hex : t ≥ period.start ∧ t ≤ period.end_
      · simp only [classifyPeriodsChecked, classifyPeriods, if_pos hex]
      · have hadd1 : checkedAdd period.end_ ga = some (period.end_ + ga) := by
          unfold checkedAdd
          rw [if_pos (by omega)]
        simp only [classifyPeriodsChecked, classifyPeriods, if_neg hex, hadd1]
        by_cases h2 : t < period.end_ + ga
        · simp only [if_pos h2]
          exact ih _ hendRest
        · have hadd2 : checkedAdd t gb = some (t + gb) := by
            unfold checkedAdd
            rw [if_pos (by omega)]
          simp only [if_neg h2, hadd2]
          by_cases h3 : t + gb > period.start
          · simp only [if_pos h3]
            exact ih _ hendRest
          · simp only [if_neg h3]
            exact ih _ hendRest
  · rfl

/-- Claim C10, witness: at the default grace values and an in-range
period the checked and unchecked classifications agree. -/
theorem load_packets_additions_no_overflow_witness :
    classifyPeriodsChecked 1000000000 5000000000 50 []
        [{ start := 100, end_ := 200, id := "u" }]
      = some (classifyPeriods 1000000000 5000000000 50 []
        [{ start := 100, end_ := 200, id := "u" }]) :=
  (load_packets_additions_no_overflow 1000000000 5000000000 50 []
      [{ start := 100, end_ := 200, id := "u" }]
      (by decide) (by decide) (by decide) (by decide)).1

/-- `possLe` is total. -/
theorem possLe_total (a b : FlowPossibility) : possLe a b ∨ possLe b a := by
  unfold possLe
  rcases a with ⟨_, _ | x⟩ <;> rcases b with ⟨_, _ | y⟩ <;>
    try simp [optTimeDiffCmp]
  rcases x with x | x <;> rcases y with y | y <;>
    simp [optTimeDiffCmp, TimeDifference.cmp, Nat.compare_eq_gt] <;> omega

/-- `possLe` is transitive. -/
theorem possLe_trans (a b c : FlowPossibility) (hab : possLe a b)
    (hbc : possLe b c) : possLe a c := by
  unfold possLe at *
  rcases a with ⟨_, _ | x⟩ <;> rcases b with ⟨_, _ | y⟩ <;>
    rcases c with ⟨_, _ | z⟩ <;>
    simp_all [optTimeDiffCmp]
  rcases x with x | x <;> rcases y with y | y <;> rcases z with z | z <;>
    simp_all [TimeDifference.cmp, Nat.compare_eq_gt] <;> omega

instance : IsTotal FlowPossibility possLe := ⟨possLe_total⟩

instance : IsTrans FlowPossibility possLe := ⟨possLe_trans⟩

/-- `possLe` on candidates with present keys implies the spec-level
candidate order. -/
theorem possLe_claimLe {a b : FlowPossibility} (h : possLe a b) :
    ∀ x y, a.time_difference = some x → b.time_difference = some y →
      claimLe x y := by
  intro x y hx hy
  unfold possLe at h
  rw [hx, hy] at h
  rcases x with x | x <;> rcases y with y | y <;>
    simp_all [optTimeDiffCmp, TimeDifference.cmp, claimLe, Nat.compare_eq_gt]

/-- When the first period satisfying `start ≤ t ≤ end` is `p`, the
`try_fold` of `load_packets` short-circuits with `Err` at `p`, whatever
candidates were accumulated before it. -/
theorem classifyPeriods_error_of_find (gb ga t : Nat) (periods : List FlowPeriod)
    (p : FlowPeriod) (acc : List FlowPossibility)
    (h : periods.find? (fun q => decide (t ≥ q.start ∧ t ≤ q.end_)) = some p) :
    classifyPeriods gb ga t acc periods
      = .error { id := p.id, time_difference := none } := by
  induction periods generalizing acc with
  | nil => simp at h
  | cons q rest ih =>
    by_cases hq : t ≥ q.start ∧ t ≤ q.end_
    · simp only [List.find?_cons, decide_eq_true hq] at h
      cases h
      simp only [classifyPeriods, if_pos hq]
    · simp only [List.find?_cons, decide_eq_false hq] at h
      simp only [classifyPeriods, if_neg hq]
      split_ifs with h2 h3 <;> exact ih _ h

/-- Claim C2: if some period under the packet's key is an exact match
(`start ≤ t ≤ end`) the iteration short-circuits at the first such period
and its uid is assigned immediately; otherwise the collected candidates
are sorted — every `After` candidate preceding every `Before` candidate,
and smaller stored deltas first within a variant — and the first candidate
after sorting is selected. -/
theorem load_packets_uid_selection (gb ga t : Nat) (periods : List FlowPeriod) :
    (∀ p, periods.find? (fun q => decide (t ≥ q.start ∧ t ≤ q.end_)) = some p →
        flowIdFor gb ga t periods = some p.id)
    ∧ (∀ cands, classifyPeriods gb ga t [] periods = .ok cands →
        flowIdFor gb ga t periods
            = (sortPossibilities cands).head?.map FlowPossibility.id
        ∧ List.Pairwise
            (fun a b => ∀ x y, a.time_difference = some x →
              b.time_difference = some y → claimLe x y)
            (sortPossibilities cands)) := by
  constructor
  · intro p hp
    unfold flowIdFor
    rw [classifyPeriods_error_of_find gb ga t periods p [] hp]
  · intro cands h
    refine ⟨?_, ?_⟩
    · unfold flowIdFor
      rw [h]
    · exact (List.sorted_insertionSort possLe cands).imp possLe_claimLe

/-- Claim C2, witness: with `grace_before = 0`, `grace_after = 10`,
`t = 250` and periods `[0,100]` (uid `a`, giving a `Before(250)`
candidate) and `[0,245]` (uid `b`, giving an `After(5)` candidate), the
`After` candidate sorts first and uid `b` is selected. -/
theorem load_packets_uid_selection_witness :
    flowIdFor 0 10 250 [{ start := 0, end_ := 100, id := "a" },
        { start := 0, end_ := 245, id := "b" }] = some "b" := by
  have h := (load_packets_uid_selection 0 10 250
      [{ start := 0, end_ := 100, id := "a" },
       { start := 0, end_ := 245, id := "b" }]).2
      [{ id := "a", time_difference := some (.Before 250) },
       { id := "b", time_difference := some (.After 5) }] (by rfl)
  rw [h.1]
  rfl

/-- The inner histogram loop never changes the number of bins. -/
theorem bumpFirstBin_length (cond : Bool) (value : Nat) :
    ∀ (edges bins : List Nat),
      (bumpFirstBin cond value edges bins).length = bins.length := by
  intro edges
  induction edges with
  | nil => intro bins; rfl
  | cons e es ih =>
    intro bins
    cases bins with
    | nil => rfl
    | cons b bs =>
      by_cases hc : (cond : Prop) ∧ value < e
      · simp [bumpFirstBin, hc]
      · simp [bumpFirstBin, hc, ih]

/-- With a false guard the inner histogram loop is a no-op. -/
theorem bumpFirstBin_false (value : Nat) :
    ∀ (edges bins : List Nat), bumpFirstBin false value edges bins = bins := by
  intro edges
  induction edges with
  | nil => intro bins; rfl
  | cons e es ih =>
    intro bins
    cases bins with
    | nil => rfl
    | cons b bs => simp [bumpFirstBin, ih]

/-- One pass of the inner histogram loop increments exactly the bin at
the first edge exceeding the value, when such an edge exists. -/
theorem bumpFirstBin_getD (value : Nat) :
    ∀ (edges bins : List Nat), bins.length = edges.length → ∀ i,
      (bumpFirstBin true value edges bins).getD i 0
        = bins.getD i 0
          + (if firstBinIdx value edges = some i then 1 else 0) := by
  intro edges
  induction edges with
  | nil =>
    intro bins h i
    simp [bumpFirstBin, firstBinIdx]
  | cons e es ih =>
    intro bins h i
    cases bins with
    | nil => simp at h
    | cons b bs =>
      have hlen : bs.length = es.length := by simpa using h
      by_cases hv : value < e
      · simp only [bumpFirstBin, firstBinIdx, hv, true_and, if_true, and_self]
        cases i <;> simp
      · simp only [bumpFirstBin, firstBinIdx, hv, true_and, if_false, and_false]
        cases i with
        | zero =>
          cases hfi : firstBinIdx value es <;> simp [hfi]
        | succ j =>
          have hih := ih bs hlen j
          cases hfi : firstBinIdx value es with
          | none => simpa [hfi] using hih
          | some k => simpa [hfi] using hih

/-- Folding the guarded histogram update over a packet list counts, per
bin, the guarded packets whose first exceeded edge is that bin. -/
theorem foldl_bump_getD (edges : List Nat) (val : PacketFeatures → Nat)
    (cond : PacketFeatures → Bool) :
    ∀ (ps : List PacketFeatures) (bins : List Nat),
      bins.length = edges.length → ∀ i,
      (ps.foldl (fun bs p => bumpFirstBin (cond p) (val p) edges bs) bins).getD i 0
        = bins.getD i 0
          + (ps.filter (fun p => cond p
              && decide (firstBinIdx (val p) edges = some i))).length := by
  intro ps
  induction ps with
  | nil => intro bins h i; simp
  | cons p ps ih =>
    intro bins h i
    simp only [List.foldl_cons, List.filter_cons]
    cases hc : cond p with
    | false =>
      rw [bumpFirstBin_false]
      simp only [hc, Bool.false_and, Bool.false_eq_true, if_false]
      exact ih bins h i
    | true =>
      have hlen2 : (bumpFirstBin true (val p) edges bins).length = edges.length := by
        rw [bumpFirstBin_length]
        exact h
      rw [ih _ hlen2 i, bumpFirstBin_getD (val p) edges bins h i]
      by_cases hfi : firstBinIdx (val p) edges = some i
      · simp [hc, hfi]
        omega
      · simp [hc, hfi]

/-- The payload histogram of the `generate` fold only depends on the
payload-length updates. -/
theorem generate_foldl_pl (plE iafE iatE : List Nat) :
    ∀ (ps : List PacketFeatures) (acc : FlowFeatures),
      (ps.foldl (generateStep plE iafE iatE) acc).payload_length_freq_bins
        = ps.foldl
            (fun bins p => bumpFirstBin true p.payload_length plE bins)
            acc.payload_length_freq_bins := by
  intro ps
  induction ps with
  | nil => intro acc; rfl
  | cons p ps ih =>
    intro acc
    simp only [List.foldl_cons, ih, generateStep]

/-- The from-client histogram of the `generate` fold only depends on the
direction-guarded interarrival updates. -/
theorem generate_foldl_iaf (plE iafE iatE : List Nat) :
    ∀ (ps : List PacketFeatures) (acc : FlowFeatures),
      (ps.foldl (generateStep plE iafE iatE) acc).interarrival_freq_from_client_bins
        = ps.foldl
            (fun bins p =>
              bumpFirstBin (decide (p.direction = PacketDirection.FromClient))
                p.interarrival_time iafE bins)
            acc.interarrival_freq_from_client_bins := by
  intro ps
  induction ps with
  | nil => intro acc; rfl
  | cons p ps ih =>
    intro acc
    simp only [List.foldl_cons, ih, generateStep]

/-- The to-client histogram of the `generate` fold only depends on the
direction-guarded interarrival updates. -/
theorem generate_foldl_iat (plE iafE iatE : List Nat) :
    ∀ (ps : List PacketFeatures) (acc : FlowFeatures),
      (ps.foldl (generateStep plE iafE iatE) acc).interarrival_freq_to_client_bins
        = ps.foldl
            (fun bins p =>
              bumpFirstBin (decide (p.direction = PacketDirection.ToClient))
                p.interarrival_time iatE bins)
            acc.interarrival_freq_to_client_bins := by
  intro ps
  induction ps with
  | nil => intro acc; rfl
  | cons p ps ih =>
    intro acc
    simp only [List.foldl_cons, ih, generateStep]

/-- Every entry of an all-zero bin vector is zero. -/
theorem replicate_getD (n i : Nat) : (List.replicate n (0 : Nat)).getD i 0 = 0 := by
  induction n generalizing i with
  | zero => simp
  | succ n ih =>
    cases i with
    | zero => simp [List.replicate]
    | succ j => simp [List.replicate, ih j]

/-- Claim C8: in `FlowFeatures::generate`, bin `i` of the payload
histogram counts exactly the packets whose first edge `e` with
`payload_length < e` (strict, so a value equal to an edge falls into the
next bin) is edge `i` — a packet at or above every edge increments no
payload bin — and bin `i` of each interarrival histogram counts exactly
the packets of the matching direction whose first exceeded interarrival
edge is edge `i`. -/
theorem flowFeatures_generate_bins (ps : List PacketFeatures)
    (plE iafE iatE : List Nat) (i : Nat) :
    ((FlowFeatures.generate ps plE iafE iatE).payload_length_freq_bins.getD i 0
        = (ps.filter (fun p =>
            decide (firstBinIdx p.payload_length plE = some i))).length)
    ∧ ((FlowFeatures.generate ps plE iafE iatE).interarrival_freq_from_client_bins.getD i 0
        = (ps.filter (fun p => decide (p.direction = PacketDirection.FromClient)
            && decide (firstBinIdx p.interarrival_time iafE = some i))).length)
    ∧ ((FlowFeatures.generate ps plE iafE iatE).interarrival_freq_to_client_bins.getD i 0
        = (ps.filter (fun p => decide (p.direction = PacketDirection.ToClient)
            && decide (firstBinIdx p.interarrival_time iatE = some i))).length) := by
  refine ⟨?_, ?_, ?_⟩
  · rw [FlowFeatures.generate, generate_foldl_pl]
    have h := foldl_bump_getD plE (fun p => p.payload_length) (fun _ => true) ps
      (List.replicate plE.length 0) (by simp) i
    simpa [replicate_getD] using h
  · rw [FlowFeatures.generate, generate_foldl_iaf]
    have h := foldl_bump_getD iafE (fun p => p.interarrival_time)
      (fun p => decide (p.direction = PacketDirection.FromClient)) ps
      (List.replicate iafE.length 0) (by simp) i
    simpa [replicate_getD] using h
  · rw [FlowFeatures.generate, generate_foldl_iat]
    have h := foldl_bump_getD iatE (fun p => p.interarrival_time)
      (fun p => decide (p.direction = PacketDirection.ToClient)) ps
      (List.replicate iatE.length 0) (by simp) i
    simpa [replicate_getD] using h

/-- A successful 2-byte read consumes exactly two bytes. -/
theorem readU16_some_len {e : Endianness} {s : List Nat} {v : Nat} {rest : List Nat}
    (h : readU16 e s = some (v, rest)) : rest.length + 2 = s.length := by
  match s with
  | [] => simp [readU16] at h
  | [_] => simp [readU16] at h
  | b0 :: b1 :: tail =>
    cases e <;> simp [readU16] at h <;> simp [← h.2]

/-- A successful 4-byte read consumes exactly four bytes. -/
theorem readU32_some_len {e : Endianness} {s : List Nat} {v : Nat} {rest : List Nat}
    (h : readU32 e s = some (v, rest)) : rest.length + 4 = s.length := by
  match s with
  | [] => simp [readU32] at h
  | [_] => simp [readU32] at h
  | [_, _] => simp [readU32] at h
  | [_, _, _] => simp [readU32] at h
  | b0 :: b1 :: b2 :: b3 :: tail =>
    cases e <;> simp [readU32] at h <;> simp [← h.2]

/-- A successful signed 4-byte read consumes exactly four bytes. -/
theorem readI32_some_len {e : Endianness} {s : List Nat} {v : Int} {rest : List Nat}
    (h : readI32 e s = some (v, rest)) : rest.length + 4 = s.length := by
  unfold readI32 at h
  cases hu : readU32 e s with
  | none => rw [hu] at h; cases h
  | some p =>
    rw [hu] at h
    cases h
    exact readU32_some_len hu

/-- A 2-byte read succeeds on any stream of at least two bytes. -/
theorem exists_readU16 (e : Endianness) (s : List Nat) (h : 2 ≤ s.length) :
    ∃ v rest, readU16 e s = some (v, rest) := by
  match s with
  | [] => simp at h
  | [_] => simp at h
  | b0 :: b1 :: tail => cases e <;> exact ⟨_, tail, rfl⟩

/-- A 4-byte read succeeds on any stream of at least four bytes. -/
theorem exists_readU32 (e : Endianness) (s : List Nat) (h : 4 ≤ s.length) :
    ∃ v rest, readU32 e s = some (v, rest) := by
  match s with
  | [] => simp at h
  | [_] => simp at h
  | [_, _] => simp at h
  | [_, _, _] => simp at h
  | b0 :: b1 :: b2 :: b3 :: tail => cases e <;> exact ⟨_, tail, rfl⟩

/-- A signed 4-byte read succeeds on any stream of at least four bytes. -/
theorem exists_readI32 (e : Endianness) (s : List Nat) (h : 4 ≤ s.length) :
    ∃ v rest, readI32 e s = some (v, rest) := by
  obtain ⟨v, rest, hv⟩ := exists_readU32 e s h
  exact ⟨toI32 v, rest, by simp [readI32, hv]⟩

/-- The six-field header read succeeds exactly when twenty bytes are
available. -/
theorem pcapHeader_read_isSome (e : Endianness) (s : List Nat) :
    (PcapHeader.read_from e s).isSome = true ↔ 20 ≤ s.length := by
  constructor
  · intro h
    unfold PcapHeader.read_from at h
    split at h
    · simp at h
    · rename_i v1 s1 h1
      split at h
      · simp at h
      · rename_i v2 s2 h2
        split at h
        · simp at h
        · rename_i v3 s3 h3
          split at h
          · simp at h
          · rename_i v4 s4 h4
            split at h
            · simp at h
            · rename_i v5 s5 h5
              split at h
              · simp at h
              · rename_i v6 s6 h6
                have l1 := readU16_some_len h1
                have l2 := readU16_some_len h2
                have l3 := readI32_some_len h3
                have l4 := readU32_some_len h4
                have l5 := readU32_some_len h5
                have l6 := readU32_some_len h6
                omega
  · intro h
    obtain ⟨v1, s1, h1⟩ := exists_readU16 e s (by omega)
    have l1 := readU16_some_len h1
    obtain ⟨v2, s2, h2⟩ := exists_readU16 e s1 (by omega)
    have l2 := readU16_some_len h2
    obtain ⟨v3, s3, h3⟩ := exists_readI32 e s2 (by omega)
    have l3 := readI32_some_len h3
    obtain ⟨v4, s4, h4⟩ := exists_readU32 e s3 (by omega)
    have l4 := readU32_some_len h4
    obtain ⟨v5, s5, h5⟩ := exists_readU32 e s4 (by omega)
    have l5 := readU32_some_len h5
    obtain ⟨v6, s6, h6⟩ := exists_readU32 e s5 (by omega)
    simp [PcapHeader.read_from, h1, h2, h3, h4, h5, h6]

/-- The sentinel match falls through exactly on a non-sentinel magic
number. -/
theorem magicInfo_eq_none_iff (m : Nat) : magicInfo m = none ↔ m ∉ pcapMagics := by
  unfold magicInfo pcapMagics
  split_ifs with h1 h2 h3 h4 <;> simp_all

/-- A recognized magic number is one of the four sentinels. -/
theorem magicInfo_mem {m : Nat} {fn : Bool × Bool} (h : magicInfo m = some fn) :
    m ∈ pcapMagics := by
  by_contra hnm
  rw [← magicInfo_eq_none_iff] at hnm
  rw [hnm] at h
  cases h

/-- The nanosecond-resolution flag produced by the sentinel match is set
exactly for the two nanosecond sentinels. -/
theorem magicInfo_nano {m : Nat} {flip nano : Bool}
    (h : magicInfo m = some (flip, nano)) :
    nano = true ↔ (m = 0xa1b23c4d ∨ m = 0x4d3cb2a1) := by
  unfold magicInfo at h
  split_ifs at h with h1 h2 h3 h4 <;>
    (injection h with h; injection h with ha hb; subst ha; subst hb) <;>
    simp_all

/-- Claim C7: `PcapReader::from_reader` succeeds if and only if the first
four bytes, read as a machine-native 32-bit integer, equal one of the four
sentinels and the remaining twenty header bytes are available; any other
magic value yields `InvalidData`; and the nanosecond-resolution flag is
set if and only if the magic is `0xA1B23C4D` or `0x4D3CB2A1`. -/
theorem pcap_from_reader_magic (native : Endianness) (source : List Nat) :
    ((∃ r, PcapReader.from_reader native source = .ok r)
      ↔ ∃ m rest, readU32 native source = some (m, rest)
          ∧ m ∈ pcapMagics ∧ 24 ≤ source.length)
    ∧ (∀ m rest, readU32 native source = some (m, rest) → m ∉ pcapMagics →
        PcapReader.from_reader native source = .error (.InvalidData m))
    ∧ (∀ r, PcapReader.from_reader native source = .ok r →
        ∀ m rest, readU32 native source = some (m, rest) →
          (r.is_nanosecond_res = true ↔ (m = 0xa1b23c4d ∨ m = 0x4d3cb2a1))) := by
  cases hm : readU32 native source with
  | none =>
    have herr : PcapReader.from_reader native source = .error .IoError := by
      simp [PcapReader.from_reader, hm]
    refine ⟨?_, ?_, ?_⟩
    · rw [herr]
      constructor
      · rintro ⟨r, hr⟩
        cases hr
      · rintro ⟨m, rest, hr, _, _⟩
        cases hr
    · intro m rest hr _
      cases hr
    · intro r hr
      rw [herr] at hr
      cases hr
  | some p =>
    obtain ⟨m, rest⟩ := p
    have hlen4 : rest.length + 4 = source.length := readU32_some_len hm
    cases hmi : magicInfo m with
    | none =>
      have hnm : m ∉ pcapMagics := (magicInfo_eq_none_iff m).mp hmi
      have herr : PcapReader.from_reader native source = .error (.InvalidData m) := by
        simp [PcapReader.from_reader, hm, hmi]
      refine ⟨?_, ?_, ?_⟩
      · rw [herr]
        constructor
        · rintro ⟨r, hr⟩
          cases hr
        · rintro ⟨m2, rest2, hr, hmem, _⟩
          injection hr with hr
          injection hr with hr1 hr2
          subst hr1
          exact absurd hmem hnm
      · intro m2 rest2 hr _
        injection hr with hr
        injection hr with hr1 hr2
        subst hr1
        exact herr
      · intro r hr
        rw [herr] at hr
        cases hr
    | some fn =>
      obtain ⟨flip, nano⟩ := fn
      have hmem : m ∈ pcapMagics := magicInfo_mem hmi
      have hnano : nano = true ↔ (m = 0xa1b23c4d ∨ m = 0x4d3cb2a1) := magicInfo_nano hmi
      cases hh : PcapHeader.read_from (if flip then native.flip else native) rest with
      | none =>
        have herr : PcapReader.from_reader native source = .error .IoError := by
          simp [PcapReader.from_reader, hm, hmi, hh]
        have hshort : ¬ 20 ≤ rest.length := by
          rw [← pcapHeader_read_isSome (if flip then native.flip else native) rest, hh]
          simp
        refine ⟨?_, ?_, ?_⟩
        · rw [herr]
          constructor
          · rintro ⟨r, hr⟩
            cases hr
          · rintro ⟨m2, rest2, hr, _, hlen⟩
            injection hr with hr
            injection hr with hr1 hr2
            subst hr2
            omega
        · intro m2 rest2 hr hnm
          injection hr with hr
          injection hr with hr1 hr2
          subst hr1
          exact absurd hmem hnm
        · intro r hr
          rw [herr] at hr
          cases hr
      | some pr =>
        obtain ⟨hdr, rest2⟩ := pr
        have hok : PcapReader.from_reader native source
            = .ok { source := rest2, endianness := if flip then native.flip else native
                    is_nanosecond_res := nano, header := hdr } := by
          simp [PcapReader.from_reader, hm, hmi, hh]
        have hlong : 20 ≤ rest.length := by
          rw [← pcapHeader_read_isSome (if flip then native.flip else native) rest, hh]
          rfl
        refine ⟨?_, ?_, ?_⟩
        · constructor
          · intro _
            exact ⟨m, rest, rfl, hmem, by omega⟩
          · intro _
            exact ⟨_, hok⟩
        · intro m2 rest2b hr hnm
          injection hr with hr
          injection hr with hr1 hr2
          subst hr1
          exact absurd hmem hnm
        · intro r hr m2 rest2b hr2
          rw [hok] at hr
          injection hr with hr
          injection hr2 with hr2
          injection hr2 with hr21 hr22
          subst hr21
          rw [← hr]
          exact hnano

/-- Claim C7, witness: a 24-byte stream opening with the swapped
nanosecond sentinel (read little-endian as `0xA1B23C4D`) is accepted. -/
theorem pcap_from_reader_magic_witness :
    ∃ r, PcapReader.from_reader .Little
        ([0x4d, 0x3c, 0xb2, 0xa1] ++ List.replicate 20 0) = .ok r :=
  (pcap_from_reader_magic .Little
      ([0x4d, 0x3c, 0xb2, 0xa1] ++ List.replicate 20 0)).1.mpr
    ⟨0xa1b23c4d, List.replicate 20 0, by decide, by decide, by decide⟩

end PacketCaptor
